import Mathlib

/-!
Verification development for the discrete-event inference simulator
(`src/simulator.py`).  The Python kernel is shallowly embedded:

* floating-point times and quantities become `ℚ`;
* `heapq` (a min-heap of `(fire_time, priority, sequence)` tuples popped in
  lexicographic order) becomes a list kept sorted by `List.orderedInsert`,
  popped at the head — the same pop-min semantics;
* Python's stable `list.sort()` on `(finish_vt, callback)` pairs becomes
  `List.insertionSort` keyed on the first component;
* callbacks become opaque identifiers (`ℕ`); invoking a callback is recorded
  by emitting its identifier;
* the pseudorandom draw `random.randint(1,8)` in `EventQueue.schedule`
  becomes an explicit parameter `k` constrained to `1 ≤ k ∧ k ≤ 8`;
* `raise`-style failures (`deque.popleft` on an empty deque) become
  `Except String`.
-/

/-! ### Event scheduler (`EventQueue`, src/simulator.py lines 9-24) -/

/-- The key of a pending event: `(fire_time, priority, sequence)`.  The
callback stored as the fourth tuple component in the Python heap is never
compared (sequence numbers are unique), so it is tracked by the unique
sequence number. -/
abbrev EKey : Type := ℚ × ℤ × ℕ

/-- Lexicographic order on event keys, exactly the order Python uses to
compare the `(fire_time, priority, sequence, callback)` heap tuples. -/
def keyLe (a b : EKey) : Prop :=
  a.1 < b.1 ∨ (a.1 = b.1 ∧ (a.2.1 < b.2.1 ∨ (a.2.1 = b.2.1 ∧ a.2.2 ≤ b.2.2)))

instance : DecidableRel keyLe := by
  intro a b
  unfold keyLe
  infer_instance

theorem keyLe_refl (a : EKey) : keyLe a a := by
  right
  exact ⟨rfl, Or.inr ⟨rfl, le_refl _⟩⟩

instance : IsTotal EKey keyLe := by
  constructor
  intro a b
  rcases lt_trichotomy a.1 b.1 with h | h | h
  · exact Or.inl (Or.inl h)
  · rcases lt_trichotomy a.2.1 b.2.1 with h2 | h2 | h2
    · exact Or.inl (Or.inr ⟨h, Or.inl h2⟩)
    · rcases le_total a.2.2 b.2.2 with h3 | h3
      · exact Or.inl (Or.inr ⟨h, Or.inr ⟨h2, h3⟩⟩)
      · exact Or.inr (Or.inr ⟨h.symm, Or.inr ⟨h2.symm, h3⟩⟩)
    · exact Or.inr (Or.inr ⟨h.symm, Or.inl h2⟩)
  · exact Or.inr (Or.inl h)

instance : IsTrans EKey keyLe := by
  constructor
  intro a b c hab hbc
  rcases hab with h1 | ⟨e1, h1⟩
  · rcases hbc with h2 | ⟨e2, _⟩
    · exact Or.inl (h1.trans h2)
    · exact Or.inl (e2 ▸ h1)
  · rcases hbc with h2 | ⟨e2, h2⟩
    · exact Or.inl (e1 ▸ h2)
    · refine Or.inr ⟨e1.trans e2, ?_⟩
      rcases h1 with h1 | ⟨f1, h1⟩
      · rcases h2 with h2 | ⟨f2, _⟩
        · exact Or.inl (h1.trans h2)
        · exact Or.inl (f2 ▸ h1)
      · rcases h2 with h2 | ⟨f2, h2⟩
        · exact Or.inl (f1 ▸ h2)
        · exact Or.inr ⟨f1.trans f2, h1.trans h2⟩

theorem keyLe_fst {a b : EKey} (h : keyLe a b) : a.1 ≤ b.1 := by
  rcases h with h | ⟨h, _⟩
  · exact le_of_lt h
  · exact le_of_eq h

/-- State of the Python `EventQueue`: the pending events (the heap, modelled
as a list kept sorted in `keyLe` order), the sequence counter `i`, and the
clock `t`. -/
structure EventQueue where
  events : List EKey
  i : ℕ
  t : ℚ
deriving DecidableEq

/-- Python `EventQueue.__init__`: empty heap, counter 0, clock 0. -/
def EventQueue.init : EventQueue := ⟨[], 0, 0⟩

/-- Python `EventQueue.schedule(delta_t, priority, callback)`.  The source first
executes `delta_t += random.randint(1,8)*0.02`; the pseudorandom draw is the
explicit parameter `k` (so `0.02` is `1/50`), then pushes
`(self.t + delta_t, priority, self.i, callback)` and increments `i`. -/
def EventQueue.schedule (s : EventQueue) (delta_t : ℚ) (priority : ℤ) (k : ℕ) :
    EventQueue :=
  let d := delta_t + (k : ℚ) * (1 / 50)
  { events := List.orderedInsert keyLe (s.t + d, priority, s.i) s.events
    i := s.i + 1
    t := s.t }

/-- Python `EventQueue.advance()`: pop the minimal event, set the clock to its fire
time and return it.  `heapq.heappop` on an empty heap raises `IndexError`,
modelled as `none`. -/
def EventQueue.advance (s : EventQueue) : Option (EKey × EventQueue) :=
  match s.events with
  | [] => none
  | e :: rest => some (e, ⟨rest, s.i, e.1⟩)

/-- One call made by a driver against the event queue: either
`schedule delta_t priority` (with jitter draw `k`) or `advance`. -/
inductive EQOp : Type
  | sched (delta_t : ℚ) (priority : ℤ) (k : ℕ)
  | adv
deriving DecidableEq

/-- A call is valid when a scheduled delay is non-negative and the jitter
draw is in the range of `random.randint(1,8)`. -/
def EQOp.valid : EQOp → Prop
  | .sched delta_t _ k => 0 ≤ delta_t ∧ 1 ≤ k ∧ k ≤ 8
  | .adv => True

instance : DecidablePred EQOp.valid := by
  intro op
  cases op <;> unfold EQOp.valid <;> infer_instance

/-- Run a sequence of calls against the queue, collecting the keys of the
events returned by the `advance` calls, in order. -/
def runEQ : EventQueue → List EQOp → EventQueue × List EKey
  | s, [] => (s, [])
  | s, .sched d p k :: ops => runEQ (s.schedule d p k) ops
  | s, .adv :: ops =>
    match s.advance with
    | none => runEQ s ops
    | some (e, s1) =>
      let r := runEQ s1 ops
      (r.1, e :: r.2)

/-- Scheduler-state invariant: the heap list is sorted and no pending event
fires before the current clock. -/
def EQInv (s : EventQueue) : Prop :=
  s.events.Sorted keyLe ∧ ∀ e ∈ s.events, s.t ≤ e.1

instance : DecidablePred EQInv := by
  intro s
  unfold EQInv
  exact instDecidableAnd

theorem eqInv_init : EQInv EventQueue.init := by
  constructor
  · exact List.sorted_nil
  · intro e he
    simp [EventQueue.init] at he

theorem schedule_t (s : EventQueue) (d : ℚ) (p : ℤ) (k : ℕ) :
    (s.schedule d p k).t = s.t := rfl

theorem schedule_events (s : EventQueue) (d : ℚ) (p : ℤ) (k : ℕ) :
    (s.schedule d p k).events =
      List.orderedInsert keyLe (s.t + (d + (k : ℚ) * (1 / 50)), p, s.i) s.events := rfl

theorem eqInv_schedule {s : EventQueue} (d : ℚ) (p : ℤ) (k : ℕ)
    (hd : 0 ≤ d) (hs : EQInv s) : EQInv (s.schedule d p k) := by
  obtain ⟨hsort, hlb⟩ := hs
  constructor
  · exact hsort.orderedInsert _ _
  · intro e he
    rw [schedule_events] at he
    rw [List.mem_orderedInsert] at he
    rw [schedule_t]
    rcases he with he | he
    · subst he
      have : (0 : ℚ) ≤ (k : ℚ) * (1 / 50) := by positivity
      simp only []
      linarith
    · exact hlb e he

theorem eqInv_advance {s : EventQueue} {e : EKey} {s1 : EventQueue}
    (hs : EQInv s) (h : s.advance = some (e, s1)) :
    EQInv s1 ∧ s1.t = e.1 ∧ s.t ≤ s1.t ∧ ∀ f ∈ s1.events, keyLe e f := by
  obtain ⟨hsort, hlb⟩ := hs
  unfold EventQueue.advance at h
  match hev : s.events with
  | [] => rw [hev] at h; simp at h
  | a :: rest =>
    rw [hev] at h
    simp only [Option.some.injEq, Prod.mk.injEq] at h
    obtain ⟨ha, hs1⟩ := h
    subst ha
    subst hs1
    rw [hev] at hsort hlb
    rw [List.sorted_cons] at hsort
    obtain ⟨hrel, hrest⟩ := hsort
    refine ⟨⟨hrest, ?_⟩, rfl, ?_, ?_⟩
    · intro f hf
      exact keyLe_fst (hrel f hf)
    · exact hlb _ (List.mem_cons_self _ _)
    · intro f hf
      exact hrel f hf

theorem runEQ_sorted_aux (ops : List EQOp) :
    ∀ (s : EventQueue) (b : EKey), EQInv s → (∀ op ∈ ops, op.valid) →
      (∀ e ∈ s.events, keyLe b e) → b.1 ≤ s.t →
      (runEQ s ops).2.Sorted keyLe ∧ ∀ f ∈ (runEQ s ops).2, keyLe b f := by
  induction ops with
  | nil =>
    intro s b _ _ _ _
    constructor
    · exact List.sorted_nil
    · intro f hf
      simp [runEQ] at hf
  | cons op ops ih =>
    intro s b hinv hv hb hbt
    have hvops : ∀ o ∈ ops, o.valid := fun o ho => hv o (List.mem_cons_of_mem _ ho)
    cases op with
    | sched d p k =>
      have hvo := hv _ (List.mem_cons_self _ _)
      obtain ⟨hd, hk1, hk8⟩ := hvo
      have hjit : (0 : ℚ) < (k : ℚ) * (1 / 50) := by
        have : (1 : ℚ) ≤ (k : ℚ) := by exact_mod_cast hk1
        nlinarith
      have hb1 : ∀ e ∈ (s.schedule d p k).events, keyLe b e := by
        intro e he
        rw [schedule_events, List.mem_orderedInsert] at he
        rcases he with he | he
        · subst he
          left
          simp only []
          linarith
        · exact hb e he
      have := ih (s.schedule d p k) b (eqInv_schedule d p k hd hinv) hvops hb1
        (by rw [schedule_t]; exact hbt)
      simpa [runEQ] using this
    | adv =>
      match hev : s.events with
      | [] =>
        have hadv : s.advance = none := by
          unfold EventQueue.advance
          rw [hev]
        have heq : runEQ s (.adv :: ops) = runEQ s ops := by
          conv_lhs => rw [runEQ]
          rw [hadv]
        rw [heq]
        exact ih s b hinv hvops hb hbt
      | e :: rest =>
        have hadv : s.advance = some (e, ⟨rest, s.i, e.1⟩) := by
          unfold EventQueue.advance
          rw [hev]
        obtain ⟨hinv1, ht1, hle1, hrel1⟩ := eqInv_advance hinv hadv
        have heq : runEQ s (.adv :: ops) =
            ((runEQ ⟨rest, s.i, e.1⟩ ops).1, e :: (runEQ ⟨rest, s.i, e.1⟩ ops).2) := by
          conv_lhs => rw [runEQ]
          rw [hadv]
        have hbe : keyLe b e := hb e (by rw [hev]; exact List.mem_cons_self _ _)
        have := ih ⟨rest, s.i, e.1⟩ e hinv1 hvops hrel1 (le_of_eq ht1.symm)
        obtain ⟨hsorted, hbound⟩ := this
        rw [heq]
        constructor
        · rw [List.sorted_cons]
          exact ⟨hbound, hsorted⟩
        · intro f hf
          rcases List.mem_cons.mp hf with hf | hf
          · subst hf
            exact hbe
          · exact Trans.trans hbe (hbound f hf)

/-- C1: for every valid sequence of `schedule` calls (delay ≥ 0, jitter draw
in `randint(1,8)`'s range) interleaved with `advance` calls, the events
returned by successive `advance` calls are in lexicographically
non-decreasing `(fire_time, priority, sequence)` order; since the sequence
counter is assigned monotonically at schedule time, equal
`(fire_time, priority)` events come back in schedule (FIFO) order. -/
theorem c1_advance_lex_order (ops : List EQOp) (hv : ∀ op ∈ ops, op.valid) :
    (runEQ EventQueue.init ops).2.Sorted keyLe :=
  (runEQ_sorted_aux ops EventQueue.init ((0 : ℚ), (0 : ℤ), (0 : ℕ)) eqInv_init hv
    (by intro e he; simp [EventQueue.init] at he) (le_refl 0)).1

/-- Witness for C1 at a concrete call sequence containing a fire-time tie. -/
theorem c1_advance_lex_order_witness :
    (∀ op ∈ [EQOp.sched 1 5 1, EQOp.sched 1 5 2, EQOp.adv, EQOp.adv,
        EQOp.sched 0 0 1, EQOp.adv], op.valid) ∧
    (runEQ EventQueue.init [EQOp.sched 1 5 1, EQOp.sched 1 5 2, EQOp.adv,
        EQOp.adv, EQOp.sched 0 0 1, EQOp.adv]).2.Sorted keyLe :=
  ⟨by norm_num [EQOp.valid], c1_advance_lex_order _ (by norm_num [EQOp.valid])⟩

/-- C8: the clock is monotonically non-decreasing and changed only by
`advance`: `schedule` leaves it untouched, and in any state satisfying the
scheduler invariant (which holds initially and is preserved by both
operations with delay ≥ 0), `advance` sets the clock to the popped event's
fire time, which is at least the previous clock value. -/
theorem c8_clock_monotone :
    (∀ (s : EventQueue) (d : ℚ) (p : ℤ) (k : ℕ), (s.schedule d p k).t = s.t) ∧
    (∀ (s : EventQueue) (e : EKey) (s1 : EventQueue), EQInv s →
      s.advance = some (e, s1) → s1.t = e.1 ∧ s.t ≤ s1.t) ∧
    EQInv EventQueue.init ∧
    (∀ (s : EventQueue) (d : ℚ) (p : ℤ) (k : ℕ), 0 ≤ d → EQInv s →
      EQInv (s.schedule d p k)) ∧
    (∀ (s : EventQueue) (e : EKey) (s1 : EventQueue), EQInv s →
      s.advance = some (e, s1) → EQInv s1) := by
  refine ⟨fun s d p k => schedule_t s d p k, ?_, eqInv_init, ?_, ?_⟩
  · intro s e s1 hinv hadv
    obtain ⟨_, h1, h2, _⟩ := eqInv_advance hinv hadv
    exact ⟨h1, h2⟩
  · intro s d p k hd hinv
    exact eqInv_schedule d p k hd hinv
  · intro s e s1 hinv hadv
    exact (eqInv_advance hinv hadv).1

/-- Witness for C8: one schedule followed by the matching advance. -/
theorem c8_clock_monotone_witness :
    EQInv (EventQueue.init.schedule 1 1 2) ∧
    (EventQueue.init.schedule 1 1 2).advance =
      some ((EventQueue.init.t + (1 + ((2 : ℕ) : ℚ) * (1 / 50)), 1, EventQueue.init.i),
        ⟨[], EventQueue.init.i + 1, EventQueue.init.t + (1 + ((2 : ℕ) : ℚ) * (1 / 50))⟩) ∧
    (⟨[], EventQueue.init.i + 1, EventQueue.init.t + (1 + ((2 : ℕ) : ℚ) * (1 / 50))⟩ :
        EventQueue).t =
      (EventQueue.init.t + (1 + ((2 : ℕ) : ℚ) * (1 / 50)), (1 : ℤ), EventQueue.init.i).1 ∧
    (EventQueue.init.schedule 1 1 2).t ≤
      (⟨[], EventQueue.init.i + 1, EventQueue.init.t + (1 + ((2 : ℕ) : ℚ) * (1 / 50))⟩ :
        EventQueue).t := by
  have h1 : EQInv (EventQueue.init.schedule 1 1 2) := by
    constructor
    · exact List.sorted_singleton _
    · intro e he
      simp only [EventQueue.schedule, EventQueue.init, List.orderedInsert,
        List.mem_singleton] at he
      subst he
      norm_num [EventQueue.schedule, EventQueue.init]
  have h2 : (EventQueue.init.schedule 1 1 2).advance =
      some ((EventQueue.init.t + (1 + ((2 : ℕ) : ℚ) * (1 / 50)), 1, EventQueue.init.i),
        ⟨[], EventQueue.init.i + 1, EventQueue.init.t + (1 + ((2 : ℕ) : ℚ) * (1 / 50))⟩) := rfl
  have h3 := c8_clock_monotone.2.1 _ _ _ h1 h2
  exact ⟨h1, h2, h3.1, h3.2⟩

/-- C9: every `schedule(delta_t, priority, callback)` call adds `k * 0.02`
to `delta_t` for the pseudorandom draw `k ∈ {1, …, 8}` before enqueueing, so
the event's fire time is between `clock + delta_t + 0.02` and
`clock + delta_t + 0.16`; in particular an event scheduled with delay 0
never fires at the virtual instant at which it was scheduled. -/
theorem c9_jitter_range (s : EventQueue) (d : ℚ) (p : ℤ) (k : ℕ)
    (h1 : 1 ≤ k) (h8 : k ≤ 8) :
    ((s.t + (d + (k : ℚ) * (1 / 50)), p, s.i) ∈ (s.schedule d p k).events) ∧
    s.t + d + 1 / 50 ≤ s.t + (d + (k : ℚ) * (1 / 50)) ∧
    s.t + (d + (k : ℚ) * (1 / 50)) ≤ s.t + d + 8 / 50 ∧
    (d = 0 → s.t < s.t + (d + (k : ℚ) * (1 / 50))) := by
  have hk1 : (1 : ℚ) ≤ (k : ℚ) := by exact_mod_cast h1
  have hk8 : (k : ℚ) ≤ 8 := by exact_mod_cast h8
  refine ⟨?_, by nlinarith, by nlinarith, ?_⟩
  · rw [schedule_events, List.mem_orderedInsert]
    exact Or.inl rfl
  · intro hd
    subst hd
    nlinarith

/-- Witness for C9 at a concrete state and draw. -/
theorem c9_jitter_range_witness :
    (1 ≤ 3 ∧ 3 ≤ 8) ∧
    ((EventQueue.init.t + (1 + ((3 : ℕ) : ℚ) * (1 / 50)), (0 : ℤ), EventQueue.init.i) ∈
      (EventQueue.init.schedule 1 0 3).events) ∧
    EventQueue.init.t + 1 + 1 / 50 ≤ EventQueue.init.t + (1 + ((3 : ℕ) : ℚ) * (1 / 50)) ∧
    EventQueue.init.t + (1 + ((3 : ℕ) : ℚ) * (1 / 50)) ≤ EventQueue.init.t + 1 + 8 / 50 ∧
    ((1 : ℚ) = 0 → EventQueue.init.t < EventQueue.init.t + (1 + ((3 : ℕ) : ℚ) * (1 / 50))) :=
  ⟨⟨by norm_num, by norm_num⟩, c9_jitter_range EventQueue.init 1 0 3 (by norm_num) (by norm_num)⟩

/-- Counterexample to C5 as stated: there is no configuration in which the
jitter is zero.  For every draw `k` that `random.randint(1,8)` can produce,
scheduling with delay 1 from the initial state enqueues a fire time
different from `clock + delay = 1`: the jitter cannot be disabled. -/
theorem c5_counterexample :
    ¬ ∃ k : ℕ, 1 ≤ k ∧ k ≤ 8 ∧
      (EventQueue.init.schedule 1 0 k).events = [((1 : ℚ), (0 : ℤ), (0 : ℕ))] := by
  rintro ⟨k, hk1, _, h⟩
  rw [schedule_events] at h
  simp only [EventQueue.init, List.orderedInsert, List.cons.injEq, Prod.mk.injEq] at h
  obtain ⟨⟨hfire, -⟩, -⟩ := h
  have hq : (k : ℚ) = 0 := by linarith
  have : k = 0 := by exact_mod_cast hq
  omega

/-- C5 amended: the jitter `k * 0.02` added by `schedule` is always strictly
positive (there is no zero-jitter configuration), so the enqueued fire time
always strictly exceeds `clock + delay`. -/
theorem c5_jitter_positive (s : EventQueue) (d : ℚ) (p : ℤ) (k : ℕ)
    (h1 : 1 ≤ k) (h8 : k ≤ 8) :
    0 < (k : ℚ) * (1 / 50) ∧
    ((s.t + (d + (k : ℚ) * (1 / 50)), p, s.i) ∈ (s.schedule d p k).events) ∧
    s.t + (d + (k : ℚ) * (1 / 50)) ≠ s.t + d := by
  have hk1 : (1 : ℚ) ≤ (k : ℚ) := by exact_mod_cast h1
  refine ⟨by nlinarith, ?_, by intro h; nlinarith⟩
  · rw [schedule_events, List.mem_orderedInsert]
    exact Or.inl rfl

/-- Witness for the amended C5 at a concrete state and draw. -/
theorem c5_jitter_positive_witness :
    (1 ≤ 1 ∧ 1 ≤ 8) ∧
    0 < ((1 : ℕ) : ℚ) * (1 / 50) ∧
    ((EventQueue.init.t + (0 + ((1 : ℕ) : ℚ) * (1 / 50)), (7 : ℤ), EventQueue.init.i) ∈
      (EventQueue.init.schedule 0 7 1).events) ∧
    EventQueue.init.t + (0 + ((1 : ℕ) : ℚ) * (1 / 50)) ≠ EventQueue.init.t + 0 :=
  ⟨⟨le_refl 1, by norm_num⟩,
    c5_jitter_positive EventQueue.init 0 7 1 (le_refl 1) (by norm_num)⟩

/-! ### Virtual-time consumption tracker
(`VirtualTimeConsumptionTracker`, src/simulator.py lines 270-320) -/

/-- State of the tracker: capacity, last-sync wall time `t`, virtual time
`vt`, the ongoing set as a `(finish_vt, callback-id)` list kept sorted by
`list.sort()`, and the generation counter `iteration`. -/
structure VirtualTimeConsumptionTracker where
  capacity : ℚ
  t : ℚ
  vt : ℚ
  ongoing : List (ℚ × ℕ)
  iteration : ℕ
deriving DecidableEq

namespace VirtualTimeConsumptionTracker

/-- Python `VirtualTimeConsumptionTracker.__init__(capacity)`: no validation is
performed on `capacity`; the fields are set directly. -/
def init (capacity : ℚ) : VirtualTimeConsumptionTracker :=
  ⟨capacity, 0, 0, [], 0⟩

/-- Python `_advance_to_now()`, with the scheduler clock passed explicitly as
`nowT`: if the ongoing set is empty, reset `vt` to 0; otherwise accrue
`elapsed * (capacity / |ongoing|)` onto `vt`; in both cases resync `t`. -/
def advance_to_now (nowT : ℚ) (tr : VirtualTimeConsumptionTracker) :
    VirtualTimeConsumptionTracker :=
  if tr.ongoing.length = 0 then
    { tr with t := nowT, vt := 0 }
  else
    { tr with
      vt := tr.vt + (nowT - tr.t) * (tr.capacity / (tr.ongoing.length : ℚ))
      t := nowT }

/-- The `while` loop of `_check_for_completions`: pop entries from the front
while `finish_vt ≤ vt`, invoking (collecting) their callbacks in order. -/
def completionsLoop (vt : ℚ) : List (ℚ × ℕ) → List (ℚ × ℕ) × List ℕ
  | [] => ([], [])
  | (finish_vt, callback) :: rest =>
    if finish_vt ≤ vt then
      let r := completionsLoop vt rest
      (r.1, callback :: r.2)
    else ((finish_vt, callback) :: rest, [])

/-- Python `_check_for_completions()`: returns the tracker with the completed
entries removed, together with the callbacks fired, in firing order. -/
def check_for_completions (tr : VirtualTimeConsumptionTracker) :
    VirtualTimeConsumptionTracker × List ℕ :=
  let r := completionsLoop tr.vt tr.ongoing
  ({ tr with ongoing := r.1 }, r.2)

/-- Python `_schedule_next_completion()`: if any unit is ongoing, bump the
generation counter and emit the event to be scheduled, as
`(delta_t, captured iteration, captured finish_vt)`; the caller passes it to
`EventQueue.schedule` with priority `RESOURCE_EXEC_COMPLETE`.  If nothing is
ongoing, no event is emitted. -/
def schedule_next_completion (tr : VirtualTimeConsumptionTracker) :
    VirtualTimeConsumptionTracker × Option (ℚ × ℕ × ℚ) :=
  match tr.ongoing with
  | [] => (tr, none)
  | (finish_vt, _) :: _ =>
    let tr1 := { tr with iteration := tr.iteration + 1 }
    let delta_t := (finish_vt - tr.vt) * ((tr.ongoing.length : ℚ) / tr.capacity)
    (tr1, some (delta_t, tr1.iteration, finish_vt))

/-- Python `add(quantity, on_complete)`: resync virtual time, insert
`(vt + quantity, on_complete)` keeping the ongoing list sorted by finish
virtual time (`self.ongoing.sort()`), and reschedule the next completion. -/
def add (nowT quantity : ℚ) (on_complete : ℕ)
    (tr : VirtualTimeConsumptionTracker) :
    VirtualTimeConsumptionTracker × Option (ℚ × ℕ × ℚ) :=
  let tr1 := advance_to_now nowT tr
  let finish_vt := tr1.vt + quantity
  let tr2 := { tr1 with
    ongoing := List.insertionSort (fun a b => a.1 ≤ b.1)
      (tr1.ongoing ++ [(finish_vt, on_complete)]) }
  schedule_next_completion tr2

/-- Python `_check_completions_callback(iteration, callback_vt)`, fired by the
scheduler at wall time `nowT`: a no-op if the captured generation is stale;
otherwise resync `t`, snap `vt` to the captured finish virtual time, fire
due completions and reschedule.  Returns the new tracker, the callbacks
fired, and the event to schedule (if any). -/
def check_completions_callback (nowT : ℚ) (iteration : ℕ) (callback_vt : ℚ)
    (tr : VirtualTimeConsumptionTracker) :
    VirtualTimeConsumptionTracker × List ℕ × Option (ℚ × ℕ × ℚ) :=
  if tr.iteration = iteration then
    let tr1 := { tr with t := nowT, vt := callback_vt }
    let r2 := check_for_completions tr1
    let r3 := schedule_next_completion r2.1
    (r3.1, r2.2, r3.2)
  else (tr, [], none)

theorem advance_to_now_ongoing (nowT : ℚ) (tr : VirtualTimeConsumptionTracker) :
    (advance_to_now nowT tr).ongoing = tr.ongoing := by
  unfold advance_to_now
  split <;> rfl

theorem advance_to_now_iteration (nowT : ℚ) (tr : VirtualTimeConsumptionTracker) :
    (advance_to_now nowT tr).iteration = tr.iteration := by
  unfold advance_to_now
  split <;> rfl

theorem schedule_next_completion_ongoing (tr : VirtualTimeConsumptionTracker) :
    (schedule_next_completion tr).1.ongoing = tr.ongoing := by
  unfold schedule_next_completion
  split <;> rfl

theorem schedule_next_completion_vt (tr : VirtualTimeConsumptionTracker) :
    (schedule_next_completion tr).1.vt = tr.vt := by
  unfold schedule_next_completion
  split <;> rfl

theorem add_vt (nowT qty : ℚ) (cb : ℕ) (tr : VirtualTimeConsumptionTracker) :
    (add nowT qty cb tr).1.vt = (advance_to_now nowT tr).vt := by
  unfold add
  rw [schedule_next_completion_vt]

theorem add_ongoing (nowT qty : ℚ) (cb : ℕ) (tr : VirtualTimeConsumptionTracker) :
    (add nowT qty cb tr).1.ongoing =
      List.insertionSort (fun a b => a.1 ≤ b.1)
        (tr.ongoing ++ [((advance_to_now nowT tr).vt + qty, cb)]) := by
  unfold add
  rw [schedule_next_completion_ongoing, advance_to_now_ongoing]

end VirtualTimeConsumptionTracker

open VirtualTimeConsumptionTracker in
/-- C6: adding a unit while others are ongoing does not change an ongoing
unit's remaining virtual work.  After the resynchronization at the start of
`add`, the tracker's `vt` is exactly what `_advance_to_now` alone would have
produced at that instant, the pre-existing entry is still present with its
`finish_vt` unchanged, and hence its remaining virtual work
`finish_vt - vt` is the same as it would have been without the `add`. -/
theorem c6_join_mid_flight (tr : VirtualTimeConsumptionTracker)
    (nowT qty : ℚ) (cb : ℕ) (p : ℚ × ℕ) (hp : p ∈ tr.ongoing) :
    (add nowT qty cb tr).1.vt = (advance_to_now nowT tr).vt ∧
    p ∈ (add nowT qty cb tr).1.ongoing ∧
    p.1 - (add nowT qty cb tr).1.vt = p.1 - (advance_to_now nowT tr).vt := by
  refine ⟨add_vt nowT qty cb tr, ?_, by rw [add_vt]⟩
  rw [add_ongoing, List.mem_insertionSort, List.mem_append]
  exact Or.inl hp

open VirtualTimeConsumptionTracker in
/-- Witness for C6: a unit of quantity 5 is ongoing, a second unit joins. -/
theorem c6_join_mid_flight_witness :
    ((5, 1) ∈ (⟨10, 0, 0, [((5 : ℚ), 1)], 3⟩ :
        VirtualTimeConsumptionTracker).ongoing) ∧
    (add 2 3 2 ⟨10, 0, 0, [((5 : ℚ), 1)], 3⟩).1.vt =
      (advance_to_now 2 ⟨10, 0, 0, [((5 : ℚ), 1)], 3⟩).vt ∧
    ((5, 1) ∈ (add 2 3 2 ⟨10, 0, 0, [((5 : ℚ), 1)], 3⟩).1.ongoing) ∧
    ((5 : ℚ), 1).1 - (add 2 3 2 ⟨10, 0, 0, [((5 : ℚ), 1)], 3⟩).1.vt =
      ((5 : ℚ), 1).1 - (advance_to_now 2 ⟨10, 0, 0, [((5 : ℚ), 1)], 3⟩).vt :=
  ⟨List.mem_singleton.mpr rfl,
    c6_join_mid_flight ⟨10, 0, 0, [((5 : ℚ), 1)], 3⟩ 2 3 2 (5, 1)
      (List.mem_singleton.mpr rfl)⟩

/-! ### Resource and admission control
(`Resource`, `FixedConcurrencyAdmissionControl`, `FIFOQueue`,
src/simulator.py lines 155-213 and 323-362) -/

/-- State of a `Resource`: the constructor stores its arguments and a fresh
tracker, with in-service count 0.  The FIFO queue holds pending stages as
`(quantity, stage-id)` pairs. -/
structure Resource where
  name : String
  consumption_tracker : VirtualTimeConsumptionTracker
  queue : List (ℚ × ℕ)
  concurrency : ℤ
  count : ℤ
deriving DecidableEq

/-- Python `Resource.__init__(name, capacity, queue, concurrency)`: no validation
of `capacity` or `concurrency` is performed. -/
def Resource.init (name : String) (capacity : ℚ) (queue : List (ℚ × ℕ))
    (concurrency : ℤ) : Resource :=
  ⟨name, VirtualTimeConsumptionTracker.init capacity, queue, concurrency, 0⟩

/-- State of `FixedConcurrencyAdmissionControl`: the limit, the admitted
count and the FIFO queue of waiting request ids. -/
structure FixedConcurrencyAdmissionControl where
  concurrency : ℤ
  count : ℤ
  queue : List ℕ
deriving DecidableEq

/-- Python `FixedConcurrencyAdmissionControl.__init__(concurrency, queue)`: no
validation of `concurrency` is performed. -/
def FixedConcurrencyAdmissionControl.init (concurrency : ℤ) (queue : List ℕ) :
    FixedConcurrencyAdmissionControl :=
  ⟨concurrency, 0, queue⟩

/-- Counterexample to C7 as stated: none of the constructors validates its
parameters, so instances with non-positive capacity or non-positive
concurrency limit ARE created (construction succeeds and stores the bad
values verbatim, rather than failing immediately). -/
theorem c7_counterexample :
    VirtualTimeConsumptionTracker.init 0 = ⟨0, 0, 0, [], 0⟩ ∧
    VirtualTimeConsumptionTracker.init (-1) = ⟨-1, 0, 0, [], 0⟩ ∧
    Resource.init ("cpu") 0 [] 0 =
      ⟨"cpu", VirtualTimeConsumptionTracker.init 0, [], 0, 0⟩ ∧
    Resource.init ("gpu") 1 [] (-2) =
      ⟨"gpu", VirtualTimeConsumptionTracker.init 1, [], -2, 0⟩ ∧
    FixedConcurrencyAdmissionControl.init 0 [] = ⟨0, 0, []⟩ :=
  ⟨rfl, rfl, rfl, rfl, rfl⟩

/-- C7 amended: construction performs no validation at all.  Each
constructor always succeeds (it is a total function) and stores its
arguments verbatim, including non-positive capacities and non-positive
concurrency limits; any failure from such values can only surface later, at
use time. -/
theorem c7_no_construction_validation :
    ∀ (c : ℚ) (nm : String) (qu : List (ℚ × ℕ)) (cc : ℤ) (rq : List ℕ),
      VirtualTimeConsumptionTracker.init c = ⟨c, 0, 0, [], 0⟩ ∧
      Resource.init nm c qu cc = ⟨nm, VirtualTimeConsumptionTracker.init c, qu, cc, 0⟩ ∧
      FixedConcurrencyAdmissionControl.init cc rq = ⟨cc, 0, rq⟩ :=
  fun _ _ _ _ _ => ⟨rfl, rfl, rfl⟩

open VirtualTimeConsumptionTracker in
/-- Counterexample to C2 as stated: capacity 1, a single unit of quantity 1
added alone at clock 0.  The tracker requests a wall delay of exactly
`q / C = 1`, but `EventQueue.schedule` adds the mandatory jitter, so the
completion event is enqueued at fire time `51/50`, not at
`clock + q / C = 1`: the callback does not fire after wall delay exactly
`q / C`. -/
theorem c2_counterexample :
    (add 0 1 0 (VirtualTimeConsumptionTracker.init 1)).2 = some (1, 1, 1) ∧
    (EventQueue.init.schedule 1 0 1).events = [((51 : ℚ) / 50, 0, 0)] ∧
    (51 : ℚ) / 50 ≠ EventQueue.init.t + 1 / 1 := by
  refine ⟨?_, ?_, ?_⟩
  · norm_num [add, advance_to_now, schedule_next_completion,
      VirtualTimeConsumptionTracker.init, List.insertionSort, List.orderedInsert]
  · simp only [EventQueue.schedule, EventQueue.init, List.orderedInsert,
      List.cons.injEq, Prod.mk.injEq]
    norm_num
  · norm_num [EventQueue.init]

open VirtualTimeConsumptionTracker in
/-- C2 amended: for a single unit of quantity `q ≥ 0` added alone (empty
ongoing set) to a tracker of capacity `C > 0` at clock `now`, the tracker
requests a completion delay of exactly `q / C`; the scheduler then enqueues
the completion event at `now + q / C + k * 0.02` (its mandatory jitter,
`k ∈ {1,…,8}`), and when that event fires at its fire time with the matching
generation, the completion callback is invoked exactly once.  The wall-clock
delay from the `add` call is therefore exactly `q / C` plus the jitter. -/
theorem c2_single_unit_completion (tr : VirtualTimeConsumptionTracker)
    (s : EventQueue) (qty : ℚ) (cb : ℕ) (k : ℕ)
    (hcap : 0 < tr.capacity) (hempty : tr.ongoing = []) (hq : 0 ≤ qty)
    (hk1 : 1 ≤ k) (hk8 : k ≤ 8) :
    (add s.t qty cb tr).2 = some (qty / tr.capacity, tr.iteration + 1, qty) ∧
    ((s.t + (qty / tr.capacity + (k : ℚ) * (1 / 50)), 0, s.i) ∈
      (s.schedule (qty / tr.capacity) 0 k).events) ∧
    (check_completions_callback (s.t + (qty / tr.capacity + (k : ℚ) * (1 / 50)))
      (tr.iteration + 1) qty (add s.t qty cb tr).1).2.1 = [cb] ∧
    s.t + (qty / tr.capacity + (k : ℚ) * (1 / 50)) - s.t =
      qty / tr.capacity + (k : ℚ) * (1 / 50) := by
  have hadv : advance_to_now s.t tr = { tr with t := s.t, vt := 0 } := by
    unfold advance_to_now
    rw [hempty]
    simp
  have hadd : add s.t qty cb tr =
      (VirtualTimeConsumptionTracker.mk tr.capacity s.t 0 [(qty, cb)]
          (tr.iteration + 1),
        some (qty / tr.capacity, tr.iteration + 1, qty)) := by
    unfold add
    rw [hadv]
    simp only [hempty, List.nil_append, List.insertionSort, List.orderedInsert,
      zero_add]
    unfold schedule_next_completion
    simp only [List.length_cons, List.length_nil, zero_add, Nat.cast_one,
      Prod.mk.injEq, Option.some.injEq]
    refine ⟨trivial, ?_, trivial⟩
    rw [mul_one_div, sub_zero]
  refine ⟨by rw [hadd], ?_, ?_, by ring⟩
  · rw [schedule_events, List.mem_orderedInsert]
    exact Or.inl rfl
  · rw [hadd]
    unfold check_completions_callback
    simp only [if_pos rfl]
    unfold check_for_completions completionsLoop
    simp only [if_pos (le_refl qty)]
    rfl

open VirtualTimeConsumptionTracker in
/-- Witness for the amended C2: capacity 4, quantity 2, jitter draw 1. -/
theorem c2_single_unit_completion_witness :
    (0 < (VirtualTimeConsumptionTracker.init 4).capacity ∧
      (VirtualTimeConsumptionTracker.init 4).ongoing = [] ∧ (0 : ℚ) ≤ 2 ∧
      1 ≤ 1 ∧ 1 ≤ 8) ∧
    (add EventQueue.init.t 2 5 (VirtualTimeConsumptionTracker.init 4)).2 =
      some (2 / (VirtualTimeConsumptionTracker.init 4).capacity,
        (VirtualTimeConsumptionTracker.init 4).iteration + 1, 2) ∧
    ((EventQueue.init.t + (2 / (VirtualTimeConsumptionTracker.init 4).capacity +
        ((1 : ℕ) : ℚ) * (1 / 50)), 0, EventQueue.init.i) ∈
      (EventQueue.init.schedule
        (2 / (VirtualTimeConsumptionTracker.init 4).capacity) 0 1).events) ∧
    (check_completions_callback
      (EventQueue.init.t + (2 / (VirtualTimeConsumptionTracker.init 4).capacity +
        ((1 : ℕ) : ℚ) * (1 / 50)))
      ((VirtualTimeConsumptionTracker.init 4).iteration + 1) 2
      (add EventQueue.init.t 2 5 (VirtualTimeConsumptionTracker.init 4)).1).2.1 = [5] ∧
    EventQueue.init.t + (2 / (VirtualTimeConsumptionTracker.init 4).capacity +
        ((1 : ℕ) : ℚ) * (1 / 50)) - EventQueue.init.t =
      2 / (VirtualTimeConsumptionTracker.init 4).capacity + ((1 : ℕ) : ℚ) * (1 / 50) :=
  ⟨⟨by norm_num [VirtualTimeConsumptionTracker.init], rfl, by norm_num,
      le_refl 1, by norm_num⟩,
    c2_single_unit_completion (VirtualTimeConsumptionTracker.init 4)
      EventQueue.init 2 5 1 (by norm_num [VirtualTimeConsumptionTracker.init])
      rfl (by norm_num) (le_refl 1) (by norm_num)⟩

open VirtualTimeConsumptionTracker in
/-- Callback conservation for the completion loop: every callback of the
input list ends up either still ongoing or fired, with multiplicity. -/
theorem completionsLoop_count (vt : ℚ) (l : List (ℚ × ℕ)) (cb : ℕ) :
    ((completionsLoop vt l).1.map Prod.snd).count cb +
      ((completionsLoop vt l).2).count cb = (l.map Prod.snd).count cb := by
  induction l with
  | nil => simp [completionsLoop]
  | cons a rest ih =>
    obtain ⟨f, c⟩ := a
    unfold completionsLoop
    split
    · simp only [List.map_cons, List.count_cons]
      omega
    · simp

open VirtualTimeConsumptionTracker in
/-- Callback conservation for `_check_completions_callback`: stale or live,
the callbacks of the ongoing set are partitioned between the remaining
ongoing set and the fired list. -/
theorem check_completions_callback_count (nowT : ℚ) (iteration : ℕ)
    (cvt : ℚ) (tr : VirtualTimeConsumptionTracker) (cb : ℕ) :
    (((check_completions_callback nowT iteration cvt tr).1.ongoing.map
        Prod.snd).count cb) +
      ((check_completions_callback nowT iteration cvt tr).2.1.count cb) =
      (tr.ongoing.map Prod.snd).count cb := by
  unfold check_completions_callback
  split
  · simp only [schedule_next_completion_ongoing]
    unfold check_for_completions
    exact completionsLoop_count cvt tr.ongoing cb
  · simp

open VirtualTimeConsumptionTracker in
/-- Callback bookkeeping for `add`: the new ongoing set holds exactly the
old callbacks plus the one just added, with multiplicity. -/
theorem add_ongoing_count (nowT qty : ℚ) (cb0 cb : ℕ)
    (tr : VirtualTimeConsumptionTracker) :
    (((add nowT qty cb0 tr).1.ongoing).map Prod.snd).count cb =
      (tr.ongoing.map Prod.snd).count cb + (if cb = cb0 then 1 else 0) := by
  rw [add_ongoing]
  have hperm := (List.perm_insertionSort (fun a b : ℚ × ℕ => a.1 ≤ b.1)
    (tr.ongoing ++ [((advance_to_now nowT tr).vt + qty, cb0)])).map Prod.snd
  rw [hperm.count_eq]
  rw [List.map_append, List.count_append]
  simp only [List.map_cons, List.map_nil, List.count_cons, List.count_nil]
  by_cases h : cb = cb0
  · simp [h]
  · simp [h, Ne.symm h]

/-- Ghost state for a whole tracker run: the tracker itself, the callbacks
passed to `add` so far, and the callbacks fired so far. -/
structure TrackerRun where
  tr : VirtualTimeConsumptionTracker
  added : List ℕ
  fired : List ℕ
deriving DecidableEq

/-- One step of a tracker run: either `add` is called with a callback not
used before (in the program every `add` passes a fresh closure), or the
scheduler fires a completion event carrying an arbitrary captured generation
and virtual time.  Wall-clock times are unconstrained, so every real
interleaving is covered. -/
inductive TrackerStep : TrackerRun → TrackerRun → Prop
  | add (s : TrackerRun) (nowT qty : ℚ) (cb : ℕ) (h : cb ∉ s.added) :
      TrackerStep s
        ⟨(VirtualTimeConsumptionTracker.add nowT qty cb s.tr).1,
          s.added ++ [cb], s.fired⟩
  | fire (s : TrackerRun) (nowT : ℚ) (iteration : ℕ) (cvt : ℚ) :
      TrackerStep s
        ⟨(VirtualTimeConsumptionTracker.check_completions_callback nowT
            iteration cvt s.tr).1,
          s.added,
          s.fired ++ (VirtualTimeConsumptionTracker.check_completions_callback
            nowT iteration cvt s.tr).2.1⟩

/-- Reachability by tracker-run steps. -/
inductive TrackerReach : TrackerRun → TrackerRun → Prop
  | refl (s : TrackerRun) : TrackerReach s s
  | step (s1 s2 s3 : TrackerRun) :
      TrackerReach s1 s2 → TrackerStep s2 s3 → TrackerReach s1 s3

/-- Run invariant: the added callbacks are pairwise distinct, and each
callback occurs in the ongoing set and the fired list together at most as
often as it was added. -/
def TrackerRunInv (s : TrackerRun) : Prop :=
  s.added.Nodup ∧ ∀ cb : ℕ,
    (s.tr.ongoing.map Prod.snd).count cb + s.fired.count cb ≤ s.added.count cb

theorem trackerStep_inv {s1 s2 : TrackerRun} (h : TrackerStep s1 s2)
    (hinv : TrackerRunInv s1) : TrackerRunInv s2 := by
  obtain ⟨hnd, hcount⟩ := hinv
  cases h with
  | add nowT qty cb0 hfresh =>
    constructor
    · rw [List.nodup_append]
      refine ⟨hnd, List.nodup_singleton _, ?_⟩
      intro a ha hb
      rw [List.mem_singleton] at hb
      subst hb
      exact hfresh ha
    · intro cb
      rw [add_ongoing_count, List.count_append]
      have hc := hcount cb
      by_cases hcb : cb = cb0
      · subst hcb
        simp only [List.count_cons, List.count_nil]
        simp
        omega
      · simp only [List.count_cons, List.count_nil]
        simp [hcb, Ne.symm hcb]
        omega
  | fire nowT iteration cvt =>
    refine ⟨hnd, ?_⟩
    intro cb
    have hcons := check_completions_callback_count nowT iteration cvt s1.tr cb
    have hc := hcount cb
    simp only [List.count_append]
    omega

theorem trackerReach_inv {s1 s2 : TrackerRun} (h : TrackerReach s1 s2)
    (hinv : TrackerRunInv s1) : TrackerRunInv s2 := by
  induction h with
  | refl => exact hinv
  | step s2 s3 _ hstep ih => exact trackerStep_inv hstep ih

/-- C3: in every run of a tracker — any interleaving of `add` calls (each
passing a fresh completion callback) with completion events firing at
arbitrary times with arbitrary captured generations — every completion
callback is invoked at most once; and a completion event whose captured
generation does not match the tracker's current generation is a silent
no-op (state unchanged, nothing fired, nothing rescheduled). -/
theorem c3_callback_at_most_once :
    (∀ (capacity : ℚ) (s : TrackerRun) (cb : ℕ),
      TrackerReach ⟨VirtualTimeConsumptionTracker.init capacity, [], []⟩ s →
      s.fired.count cb ≤ 1) ∧
    (∀ (tr : VirtualTimeConsumptionTracker) (nowT : ℚ) (iteration : ℕ)
      (cvt : ℚ), tr.iteration ≠ iteration →
      VirtualTimeConsumptionTracker.check_completions_callback nowT iteration
        cvt tr = (tr, [], none)) := by
  constructor
  · intro capacity s cb hreach
    have hinit : TrackerRunInv
        ⟨VirtualTimeConsumptionTracker.init capacity, [], []⟩ := by
      constructor
      · exact List.nodup_nil
      · intro c
        simp [VirtualTimeConsumptionTracker.init]
    obtain ⟨hnd, hcount⟩ := trackerReach_inv hreach hinit
    have h1 := hcount cb
    have h2 := List.nodup_iff_count_le_one.mp hnd cb
    omega
  · intro tr nowT iteration cvt hne
    unfold VirtualTimeConsumptionTracker.check_completions_callback
    rw [if_neg hne]

/-- Witness for C3: one unit added (callback 7) and its completion fired;
the callback fires at most once, and a stale-generation event on a fresh
tracker is a no-op. -/
theorem c3_callback_at_most_once_witness :
    List.count 7
      (TrackerRun.mk
        (VirtualTimeConsumptionTracker.check_completions_callback (51 / 50) 1 1
          (VirtualTimeConsumptionTracker.add 0 1 7
            (VirtualTimeConsumptionTracker.init 1)).1).1
        ([] ++ [7])
        ([] ++ (VirtualTimeConsumptionTracker.check_completions_callback
          (51 / 50) 1 1
          (VirtualTimeConsumptionTracker.add 0 1 7
            (VirtualTimeConsumptionTracker.init 1)).1).2.1)).fired ≤ 1 ∧
    VirtualTimeConsumptionTracker.check_completions_callback 0 5 0
      (VirtualTimeConsumptionTracker.init 1) =
      (VirtualTimeConsumptionTracker.init 1, [], none) := by
  constructor
  · exact c3_callback_at_most_once.1 1 _ 7
      (TrackerReach.step _ _ _
        (TrackerReach.step _ _ _ (TrackerReach.refl _)
          (TrackerStep.add ⟨VirtualTimeConsumptionTracker.init 1, [], []⟩ 0 1 7
            (by simp)))
        (TrackerStep.fire _ (51 / 50) 1 1))
  · exact c3_callback_at_most_once.2 (VirtualTimeConsumptionTracker.init 1) 0 5 0
      (by norm_num [VirtualTimeConsumptionTracker.init])

/-- The abstract base class `Queue` (src/simulator.py lines 181-196) is
stateless: `is_empty` always answers true and `dequeue` returns the value
`None` (not an error). -/
def Queue.is_empty (_ : Unit) : Bool := true

/-- Base-class `Queue.dequeue`: returns `None` as an ordinary value. -/
def Queue.dequeue (_ : Unit) : Option ℕ := none

/-- Python `FIFOQueue.is_empty`: whether the backing deque is empty. -/
def FIFOQueue.is_empty {α : Type} (pending : List α) : Bool :=
  pending.length == 0

/-- Python `FIFOQueue.enqueue`: append on the right of the deque. -/
def FIFOQueue.enqueue {α : Type} (pending : List α) (r : α) : List α :=
  pending ++ [r]

/-- Python `FIFOQueue.dequeue`: `popleft`, which raises `IndexError` on an empty
deque — modelled as `Except.error`. -/
def FIFOQueue.dequeueE {α : Type} : List α → Except String (α × List α)
  | [] => Except.error ("pop from an empty deque")
  | r :: rest => Except.ok (r, rest)

/-- The drain loop of `FixedConcurrencyAdmissionControl._admit_if_possible`,
faithful to the source: while `count < concurrency` and the discipline is
non-empty, dequeue (which can in principle fail) and admit.  Returns the new
count, the remaining queue and the requests admitted in order. -/
def admit_if_possible (limit count : ℤ) (queue admitted : List ℕ) :
    Except String (ℤ × List ℕ × List ℕ) :=
  if count < limit ∧ FIFOQueue.is_empty queue = false then
    match h : FIFOQueue.dequeueE queue with
    | .error e => .error e
    | .ok (r, rest) => admit_if_possible limit (count + 1) rest (admitted ++ [r])
  else .ok (count, queue, admitted)
termination_by queue.length
decreasing_by
  cases queue with
  | nil => simp [FIFOQueue.dequeueE] at h
  | cons a as =>
    simp only [FIFOQueue.dequeueE, Except.ok.injEq, Prod.mk.injEq] at h
    obtain ⟨-, h2⟩ := h
    subst h2
    simp

/-- The same drain loop written by structural recursion on the queue (the
form used in the admission-control step relation). -/
def admit_all (limit : ℤ) : ℤ → List ℕ → List ℕ → ℤ × List ℕ × List ℕ
  | count, [], admitted => (count, [], admitted)
  | count, r :: rest, admitted =>
    if count < limit then admit_all limit (count + 1) rest (admitted ++ [r])
    else (count, r :: rest, admitted)

/-- The drain loop of `Resource._exec_next`, faithful to the source: while
`count < concurrency` and the FIFO queue is non-empty, increment the count
and dequeue the next stage (handing it to the consumption tracker). -/
def Resource.exec_next (concurrency count : ℤ)
    (queue dequeued : List (ℚ × ℕ)) :
    Except String (ℤ × List (ℚ × ℕ) × List (ℚ × ℕ)) :=
  if count < concurrency ∧ FIFOQueue.is_empty queue = false then
    match h : FIFOQueue.dequeueE queue with
    | .error e => .error e
    | .ok (x, rest) =>
      Resource.exec_next concurrency (count + 1) rest (dequeued ++ [x])
  else .ok (count, queue, dequeued)
termination_by queue.length
decreasing_by
  cases queue with
  | nil => simp [FIFOQueue.dequeueE] at h
  | cons a as =>
    simp only [FIFOQueue.dequeueE, Except.ok.injEq, Prod.mk.injEq] at h
    obtain ⟨-, h2⟩ := h
    subst h2
    simp

/-- Python `Resource._exec_next` by structural recursion on the queue. -/
def Resource.exec_all (concurrency : ℤ) :
    ℤ → List (ℚ × ℕ) → List (ℚ × ℕ) → ℤ × List (ℚ × ℕ) × List (ℚ × ℕ)
  | count, [], dequeued => (count, [], dequeued)
  | count, x :: rest, dequeued =>
    if count < concurrency then
      Resource.exec_all concurrency (count + 1) rest (dequeued ++ [x])
    else (count, x :: rest, dequeued)

theorem admit_if_possible_ok (limit : ℤ) :
    ∀ (queue : List ℕ) (count : ℤ) (admitted : List ℕ),
      admit_if_possible limit count queue admitted =
        Except.ok (admit_all limit count queue admitted) := by
  intro queue
  induction queue with
  | nil =>
    intro count admitted
    unfold admit_if_possible
    simp [FIFOQueue.is_empty, admit_all]
  | cons a as ih =>
    intro count admitted
    unfold admit_if_possible
    by_cases hc : count < limit
    · rw [if_pos ⟨hc, by simp [FIFOQueue.is_empty]⟩]
      simp only [FIFOQueue.dequeueE]
      rw [ih]
      conv_rhs => rw [admit_all]
      rw [if_pos hc]
    · rw [if_neg (fun hh => hc hh.1)]
      conv_rhs => rw [admit_all]
      rw [if_neg hc]

theorem exec_next_ok (concurrency : ℤ) :
    ∀ (queue : List (ℚ × ℕ)) (count : ℤ) (dequeued : List (ℚ × ℕ)),
      Resource.exec_next concurrency count queue dequeued =
        Except.ok (Resource.exec_all concurrency count queue dequeued) := by
  intro queue
  induction queue with
  | nil =>
    intro count dequeued
    unfold Resource.exec_next
    simp [FIFOQueue.is_empty, Resource.exec_all]
  | cons a as ih =>
    intro count dequeued
    unfold Resource.exec_next
    by_cases hc : count < concurrency
    · rw [if_pos ⟨hc, by simp [FIFOQueue.is_empty]⟩]
      simp only [FIFOQueue.dequeueE]
      rw [ih]
      conv_rhs => rw [Resource.exec_all]
      rw [if_pos hc]
    · rw [if_neg (fun hh => hc hh.1)]
      conv_rhs => rw [Resource.exec_all]
      rw [if_neg hc]

/-- C10: `FIFOQueue.dequeue` on an empty queue raises (the error branch of
the model), unlike the abstract base `Queue.dequeue` which returns the value
`None`; but both kernel drain loops — `_admit_if_possible` and
`_exec_next` — test `is_empty` before every dequeue, so they always return
normally: the empty-dequeue error branch is unreachable from them. -/
theorem c10_empty_dequeue_unreachable :
    FIFOQueue.dequeueE ([] : List ℕ) =
      Except.error ("pop from an empty deque") ∧
    Queue.dequeue () = none ∧
    (∀ (limit count : ℤ) (queue admitted : List ℕ),
      admit_if_possible limit count queue admitted =
        Except.ok (admit_all limit count queue admitted)) ∧
    (∀ (concurrency count : ℤ) (queue dequeued : List (ℚ × ℕ)),
      Resource.exec_next concurrency count queue dequeued =
        Except.ok (Resource.exec_all concurrency count queue dequeued)) :=
  ⟨rfl, rfl, fun limit count queue admitted => admit_if_possible_ok limit queue count admitted,
    fun concurrency count queue dequeued => exec_next_ok concurrency queue count dequeued⟩

theorem admit_all_spec (limit : ℤ) :
    ∀ (queue : List ℕ) (count : ℤ) (admitted : List ℕ),
      (admit_all limit count queue admitted).1 =
        count + ((admit_all limit count queue admitted).2.2.length : ℤ) -
          (admitted.length : ℤ) ∧
      (admit_all limit count queue admitted).1 ≤ max limit count := by
  intro queue
  induction queue with
  | nil =>
    intro count admitted
    unfold admit_all
    exact ⟨by push_cast; ring, le_max_right _ _⟩
  | cons r rest ih =>
    intro count admitted
    unfold admit_all
    by_cases hc : count < limit
    · rw [if_pos hc]
      obtain ⟨ih1, ih2⟩ := ih (count + 1) (admitted ++ [r])
      constructor
      · rw [ih1]
        simp only [List.length_append, List.length_singleton]
        push_cast
        omega
      · have hmax : max limit (count + 1) = limit := max_eq_left (by omega)
        rw [hmax] at ih2
        exact ih2.trans (le_max_left _ _)
    · rw [if_neg hc]
      exact ⟨by push_cast; ring, le_max_right _ _⟩

/-- Ghost state for an admission-control run: the
`FixedConcurrencyAdmissionControl` object plus the set of requests that have
been admitted (`admitted()` invoked) and whose completion has not yet been
reported via `completed()` — i.e. the requests currently Executing. -/
structure ACRun where
  ac : FixedConcurrencyAdmissionControl
  executing : List ℕ
deriving DecidableEq

/-- One step of an admission-control run: `enqueue(request)` appends to the
discipline (the admission check it schedules runs as a separate, deferred
step), the scheduled `_admit_if_possible` event drains the discipline, or an
executing request completes (`completed(request)` decrements the count and
re-schedules the admission check). -/
inductive ACStep : ACRun → ACRun → Prop
  | enqueue (s : ACRun) (r : ℕ) :
      ACStep s ⟨⟨s.ac.concurrency, s.ac.count,
        FIFOQueue.enqueue s.ac.queue r⟩, s.executing⟩
  | admitCheck (s : ACRun) :
      ACStep s ⟨⟨s.ac.concurrency,
        (admit_all s.ac.concurrency s.ac.count s.ac.queue []).1,
        (admit_all s.ac.concurrency s.ac.count s.ac.queue []).2.1⟩,
        s.executing ++ (admit_all s.ac.concurrency s.ac.count s.ac.queue []).2.2⟩
  | complete (s : ACRun) (r : ℕ) (h : r ∈ s.executing) :
      ACStep s ⟨⟨s.ac.concurrency, s.ac.count - 1, s.ac.queue⟩,
        s.executing.erase r⟩

/-- Reachability by admission-control steps. -/
inductive ACReach : ACRun → ACRun → Prop
  | refl (s : ACRun) : ACReach s s
  | step (s1 s2 s3 : ACRun) : ACReach s1 s2 → ACStep s2 s3 → ACReach s1 s3

/-- Admission-control run invariant for limit `L`: the stored limit is `L`,
the admitted count tracks the number of executing requests, and it never
exceeds `L`. -/
def ACInv (L : ℤ) (s : ACRun) : Prop :=
  s.ac.concurrency = L ∧ (s.executing.length : ℤ) = s.ac.count ∧ s.ac.count ≤ L

theorem acStep_inv {L : ℤ} (hL : 0 ≤ L) {s1 s2 : ACRun} (h : ACStep s1 s2)
    (hinv : ACInv L s1) : ACInv L s2 := by
  obtain ⟨hcc, hlen, hle⟩ := hinv
  cases h with
  | enqueue r => exact ⟨hcc, hlen, hle⟩
  | admitCheck =>
    obtain ⟨hspec1, hspec2⟩ :=
      admit_all_spec s1.ac.concurrency s1.ac.queue s1.ac.count []
    have hmax : max s1.ac.concurrency s1.ac.count = L := by
      rw [hcc]
      exact max_eq_left hle
    refine ⟨hcc, ?_, ?_⟩
    · show ((s1.executing ++
          (admit_all s1.ac.concurrency s1.ac.count s1.ac.queue []).2.2).length : ℤ) =
        (admit_all s1.ac.concurrency s1.ac.count s1.ac.queue []).1
      rw [List.length_append, hspec1]
      simp only [List.length_nil]
      push_cast
      omega
    · rw [hmax] at hspec2
      exact hspec2
  | complete r hr =>
    have hpos : 0 < s1.executing.length := List.length_pos_of_mem hr
    refine ⟨hcc, ?_, ?_⟩
    · show ((s1.executing.erase r).length : ℤ) = s1.ac.count - 1
      rw [List.length_erase_of_mem hr]
      omega
    · show s1.ac.count - 1 ≤ L
      omega

theorem acReach_inv {L : ℤ} (hL : 0 ≤ L) {s1 s2 : ACRun} (h : ACReach s1 s2)
    (hinv : ACInv L s1) : ACInv L s2 := by
  induction h with
  | refl => exact hinv
  | step s2 s3 _ hstep ih => exact acStep_inv hL hstep ih

/-- C4: under `FixedConcurrencyAdmissionControl` with limit `L ≥ 1`, in
every reachable state of the system the number of requests that have been
admitted but whose completion has not yet been reported — the requests
simultaneously Executing — never exceeds `L`. -/
theorem c4_admission_bound (L : ℤ) (q0 : List ℕ) (s : ACRun) (hL : 1 ≤ L)
    (hreach : ACReach ⟨FixedConcurrencyAdmissionControl.init L q0, []⟩ s) :
    (s.executing.length : ℤ) ≤ L := by
  have hinit : ACInv L ⟨FixedConcurrencyAdmissionControl.init L q0, []⟩ := by
    refine ⟨rfl, rfl, ?_⟩
    show (0 : ℤ) ≤ L
    omega
  obtain ⟨-, h1, h2⟩ := acReach_inv (by omega) hreach hinit
  omega

/-- Witness for C4: limit 1, one queued request, one admission drain. -/
theorem c4_admission_bound_witness :
    (1 ≤ (1 : ℤ)) ∧
    (((ACRun.mk ⟨1, (admit_all 1 0 [4] []).1, (admit_all 1 0 [4] []).2.1⟩
        ([] ++ (admit_all 1 0 [4] []).2.2)).executing.length : ℤ) ≤ 1) :=
  ⟨le_refl 1,
    c4_admission_bound 1 [4] _ (le_refl 1)
      (ACReach.step _ _ _ (ACReach.refl _)
        (ACStep.admitCheck ⟨FixedConcurrencyAdmissionControl.init 1 [4], []⟩))⟩
